import Mathlib

/-!
Verification development for the "Gist Feed Loader" page script
(`script.js`): a paginated fetcher for a GitHub user's public gists, a
content classifier, a per-gist renderer, and a page driver.

The JavaScript is shallowly embedded:
  * strings are Lean `String`s; JS string primitives (`split`, `pop`,
    `toLowerCase`, `endsWith`, `includes`, the global single-character
    `replace`) are modelled by executable Lean functions over `List Char`;
  * JS truthiness of optional strings (`null`/`undefined`/`""` are falsy)
    is modelled by `jsTruthy` / `jsOr`;
  * the network, the markdown renderer (`marked.parse`), the highlighter
    registry (`Prism.languages`) and locale date formatting
    (`formatDate`, which uses `Date`/`toLocaleDateString`) are external
    collaborators and enter as explicit environment parameters;
  * thrown exceptions become `Except Unit`;
  * the `while (hasMore)` pagination loop is given explicit fuel; a run
    that terminates within the fuel yields `some` result;
  * the DOM fragments the script manipulates (`#index-list`,
    `#gist-container`, and the `#loading-progress` element that the
    script itself creates inside the container) are modelled by `Dom`.
-/

/-- JS `String.prototype.split` with a single-character separator,
on the character list of the string.  `splitOnChar c l` never returns
an empty list, and `"".split(c)` is `[""]`, as in JS. -/
def splitOnChar (c : Char) : List Char → List (List Char)
  | [] => [[]]
  | x :: xs =>
    match splitOnChar c xs with
    | [] => [[]]
    | y :: ys => if x = c then [] :: y :: ys else (x :: y) :: ys

/-- JS `String.prototype.toLowerCase` (ASCII-faithful). -/
def jsToLower (s : String) : String :=
  ⟨s.data.map Char.toLower⟩

/-- JS `String.prototype.endsWith`. -/
def jsEndsWith (s suffix : String) : Bool :=
  suffix.data.isSuffixOf s.data

/-- JS `String.prototype.includes`: substring containment. -/
def containsSub (pat : List Char) : List Char → Bool
  | [] => List.isPrefixOf pat []
  | c :: rest => List.isPrefixOf pat (c :: rest) || containsSub pat rest

/-- JS `opt || dflt` for an optional string: `null`/`undefined` and the
empty string are falsy. -/
def jsOr (o : Option String) (dflt : String) : String :=
  match o with
  | none => dflt
  | some s => if s = "" then dflt else s

/-- JS truthiness of an optional string. -/
def jsTruthy (o : Option String) : Bool :=
  match o with
  | none => false
  | some s => !(s = "")

/-- `filename.split('.').pop().toLowerCase()` — the extension expression
of `getLanguageClass` (script.js line 119). -/
def jsExt (filename : String) : String :=
  ⟨((splitOnChar '.' filename.data).getLastD []).map Char.toLower⟩

/-- script.js lines 118-138, `getLanguageClass(filename, language)`.
`prism` models membership in the `Prism.languages` grammar registry,
an external collaborator. -/
def getLanguageClass (prism : String → Bool) (filename : String)
    (language : Option String) : String :=
  let ext := jsExt filename
  let lang := jsToLower (jsOr language "text")
  if ext = "yml" ∨ ext = "yaml" then "language-yaml"
  else if ext = "js" then "language-javascript"
  else if ext = "py" then "language-python"
  else if ext = "sh" then "language-bash"
  else if ext = "json" then "language-json"
  else if ext = "md" then "language-markdown"
  else if ext = "html" ∨ ext = "htm" then "language-html"
  else if ext = "service" then "language-ini"
  else if ext = "ini" ∨ ext = "cfg" ∨ ext = "ext" then "language-ini"
  else if prism lang then "language-" ++ lang
  else "language-text"

/-- The extension strings that `getLanguageClass` recognizes as
overrides (used only to state theorems about the classifier). -/
def overrideExts : List String :=
  ["yml", "yaml", "js", "py", "sh", "json", "md", "html", "htm",
   "service", "ini", "cfg", "ext"]

/-- One global single-character `replace(/c/g, repl)` pass, on character
lists. -/
def replaceChar (c : Char) (repl : List Char) : List Char → List Char
  | [] => []
  | x :: xs => (if x = c then repl else [x]) ++ replaceChar c repl xs

/-- script.js lines 278-283, `escapeHtml(text)`: three sequential global
replaces, `&` then `<` then `>`. -/
def escapeHtml (text : String) : String :=
  ⟨replaceChar '>' "&gt;".data
    (replaceChar '<' "&lt;".data
      (replaceChar '&' "&amp;".data text.data))⟩

/-- Character-wise description of HTML escaping (used to state that
`escapeHtml` replaces every `&`, `<`, `>`). -/
def htmlEscapeChar (c : Char) : List Char :=
  if c = '&' then "&amp;".data
  else if c = '<' then "&lt;".data
  else if c = '>' then "&gt;".data
  else [c]

/-- Outcome of one page request of the gist listing: `failure` covers a
thrown fetch/timeout error, a non-ok HTTP status (script.js lines 92-94)
and a JSON decoding error; `success` carries the decoded gist array and
the response's `Link` header (script.js line 100). -/
inductive PageResult (α : Type) where
  | failure : PageResult α
  | success (items : List α) (link : Option String) : PageResult α

/-- script.js line 101: `linkHeader && linkHeader.includes('rel="next"')`. -/
def hasNextLink (link : Option String) : Bool :=
  match link with
  | none => false
  | some s => !(s = "") && containsSub ("rel=\"next\"").data s.data

/-- The `while (hasMore)` loop of `fetchAllGists` (script.js lines
81-109), with explicit fuel.  `world` maps a page number to that page's
outcome.  The state is the accumulator `acc` (`allGists`), and the
result records whether the loop ended with `error` set (the `catch` at
lines 104-108).  `reqs` is a ghost log of the page numbers requested, in
order; it does not influence the computation.  `none` means the fuel ran
out before the loop exited. -/
def fetchPages {α : Type} (world : Nat → PageResult α) :
    Nat → Nat → List α → List Nat → Option (List Nat × List α × Bool)
  | 0, _, _, _ => none
  | fuel + 1, page, acc, reqs =>
    let reqs' := reqs ++ [page]
    match world page with
    | .failure => some (reqs', acc, true)
    | .success items link =>
      let acc' := acc ++ items
      if hasNextLink link then fetchPages world fuel (page + 1) acc' reqs'
      else some (reqs', acc', false)

/-- script.js lines 75-116, `fetchAllGists()`: run the pagination loop
from page 1 with an empty accumulator, then apply the final policy
(lines 111-115): `if (error && allGists.length === 0) throw error;
return allGists`. -/
def fetchAllGists {α : Type} (world : Nat → PageResult α) (fuel : Nat) :
    Option (Except Unit (List α)) :=
  match fetchPages world fuel 1 [] [] with
  | none => none
  | some (_, acc, err) =>
    some (if err && acc.isEmpty then Except.error () else Except.ok acc)

/-- Ghost projection of the pagination loop: the page numbers requested,
in order. -/
def fetchAllGistsPages {α : Type} (world : Nat → PageResult α)
    (fuel : Nat) : Option (List Nat) :=
  match fetchPages world fuel 1 [] [] with
  | none => none
  | some (reqs, _, _) => some reqs

/-- A mock server determined by a finite list of pages: page `p` (pages
are 1-based) answers with entry `p - 1` of the list, and every page
beyond the list fails. -/
def worldOfPages {α : Type} (ps : List (List α × Option String)) :
    Nat → PageResult α :=
  fun p =>
    match ps[p - 1]? with
    | some pr => .success pr.1 pr.2
    | none => .failure

/-- One file record of a gist, as used by the script: `filename`,
`language` (may be `null`), `raw_url` (may be absent/empty). -/
structure FileEntry where
  filename : String
  language : Option String
  rawUrl : Option String
deriving DecidableEq, Repr

/-- One gist record, as used by the script.  `files` is
`Object.values(gist.files)` in object order. -/
structure Gist where
  description : Option String
  createdAt : String
  htmlUrl : String
  files : List FileEntry
deriving DecidableEq, Repr

/-- An `<li><a href="#...">title</a></li>` entry of `#index-list`. -/
structure IndexEntry where
  href : String
  text : String
deriving DecidableEq, Repr

/-- The rendered content part of a gist block (what the branches at
script.js lines 184-211 append to `gistDiv`). -/
inductive GistContent where
  /-- `firstFile && firstFile.raw_url` was falsy: nothing appended. -/
  | skipped : GistContent
  /-- `.svg`: an `<img>` referencing the raw url (not fetched). -/
  | svg (url : String) (alt : String) : GistContent
  /-- `.md`: fetched text passed through `marked.parse`. -/
  | markdownDoc (html : String) : GistContent
  /-- default: escaped code in a `<pre><code class=...>` block. -/
  | codeBlock (langClass : String) (escaped : String) : GistContent
  /-- the `catch` at lines 207-210: `<p>Could not load file preview.</p>`. -/
  | loadError (msg : String) : GistContent
deriving DecidableEq, Repr

/-- The gist `<div>` appended to `#gist-container` by `processGist`:
its `id`, the `<h2>` title and link, the per-file date stamps, and the
content part. -/
structure GistBlock where
  id : String
  title : String
  titleHref : String
  fileDates : List String
  content : GistContent
deriving DecidableEq, Repr

/-- A child of `#gist-container`.  The `loading` node is the placeholder
`<div class="loading">` from script.js lines 227-232; its field is the
text of the `<p id="loading-progress">` child, or `none` once that
element has been removed.  `errorBox` is the fixed diagnostic markup of
lines 263-273. -/
inductive DomNode where
  | loading (progress : Option String) : DomNode
  | msg (text : String) : DomNode
  | errorBox : DomNode
  | gist (b : GistBlock) : DomNode
deriving DecidableEq, Repr

/-- A child of `#index-list`: an anchor entry from `processGist`, or a
plain `<li>` (the empty-state and error-state messages). -/
inductive IndexNode where
  | item (e : IndexEntry) : IndexNode
  | plainItem (text : String) : IndexNode
deriving DecidableEq, Repr

/-- The DOM state the script manipulates: children of `#gist-container`
and of `#index-list`.  The `#loading-progress` element only ever exists
inside a `loading` node of the container (it is created there by
`fetchGists`). -/
structure Dom where
  containerNodes : List DomNode
  indexNodes : List IndexNode
deriving DecidableEq, Repr

/-- External collaborators of the render pipeline: the raw-file fetch
(`fetchWithTimeout` + `.text()`, failure covering network errors and the
8s abort), `marked.parse`, `Prism.languages` membership, and
`formatDate` (locale date formatting). -/
structure Env where
  ffetch : String → Except Unit String
  markedParse : String → String
  prism : String → Bool
  fmtDate : String → String

/-- script.js line 145: `gist.description || `Gist ${index + 1}``. -/
def gistTitle (description : Option String) (index : Nat) : String :=
  jsOr description ("Gist " ++ toString (index + 1))

/-- The index entry `processGist` appends (script.js lines 154-156):
`<a href="#${gistId}">${title}</a>` with `gistId = "gist-" + index`. -/
def entryOf (g : Gist) (index : Nat) : IndexEntry :=
  { href := "#" ++ ("gist-" ++ toString index)
    text := gistTitle g.description index }

/-- The content dispatch of `processGist` (script.js lines 184-211) for
the first file: svg is embedded without fetching; markdown is fetched
and parsed; anything else is fetched, HTML-escaped and tagged with the
classifier's category; a fetch failure yields the placeholder
paragraph. -/
def contentOf (env : Env) (f : FileEntry) : GistContent :=
  if jsTruthy f.rawUrl then
    let u := f.rawUrl.getD ""
    if jsEndsWith (jsToLower f.filename) ".svg" then
      .svg u f.filename
    else if jsEndsWith (jsToLower f.filename) ".md" then
      match env.ffetch u with
      | .ok md => .markdownDoc (env.markedParse md)
      | .error _ => .loadError "Could not load file preview."
    else
      match env.ffetch u with
      | .ok code =>
        .codeBlock (getLanguageClass env.prism f.filename f.language)
          (escapeHtml code)
      | .error _ => .loadError "Could not load file preview."
  else .skipped

/-- The gist block `processGist` builds (script.js lines 159-211):
`id = "gist-" + index`, `<h2>` title linking `gist.html_url`, one date
stamp per file (all showing the formatted `created_at`), and the
dispatched content.  `Prism.highlightElement` (lines 216-219) is
presentation-only and leaves this structure unchanged. -/
def blockOf (env : Env) (g : Gist) (f : FileEntry) (index : Nat) :
    GistBlock :=
  { id := "gist-" ++ toString index
    title := gistTitle g.description index
    titleHref := g.htmlUrl
    fileDates := g.files.map (fun _ => env.fmtDate g.createdAt)
    content := contentOf env f }

/-- script.js lines 140-220, `processGist(gist, index)` as a transformer
of the DOM state.  With an empty `gist.files`, `fileList[0]` is
`undefined` and line 148 (`firstFile.filename`) throws a `TypeError`
before anything is appended — modelled by `.error ()`.  Otherwise the
index entry is appended (line 156) and then the gist block (line 213);
the only awaited fetch is inside a `try`/`catch`, so no other error
escapes. -/
def processGist (env : Env) (dom : Dom) (g : Gist) (index : Nat) :
    Except Unit Dom :=
  match g.files with
  | [] => .error ()
  | f :: _ =>
    let dom1 : Dom :=
      { dom with indexNodes := dom.indexNodes ++ [.item (entryOf g index)] }
    .ok { dom1 with
            containerNodes :=
              dom1.containerNodes ++ [.gist (blockOf env g f index)] }

/-- `document.getElementById('loading-progress')`: the element exists
exactly when a `loading` node of the container still holds its progress
paragraph; its text is returned. -/
def findProgress (dom : Dom) : Option String :=
  dom.containerNodes.findSome? fun n =>
    match n with
    | .loading p => p
    | _ => none

/-- `progress.textContent = msg` on the `#loading-progress` element. -/
def setProgressText (msg : String) (dom : Dom) : Dom :=
  { dom with
      containerNodes := dom.containerNodes.map fun n =>
        match n with
        | .loading _ => .loading (some msg)
        | x => x }

/-- `progress.remove()`: detach the `#loading-progress` paragraph from
its `loading` parent. -/
def removeProgress (dom : Dom) : Dom :=
  { dom with
      containerNodes := dom.containerNodes.map fun n =>
        match n with
        | .loading _ => .loading none
        | x => x }

/-- The `for` loop of `fetchGists` (script.js lines 247-253): before
each gist, look up `#loading-progress` and, if it exists, set its text
to the message `Loading gist <i+1> of <n>...`; then await
`processGist`.  A thrown
`processGist` error aborts the loop (third component `true`) and is
handled by the enclosing `catch`.  `log` is a ghost trace of every text
assignment made to the progress element; it does not influence the
computation. -/
def renderLoop (env : Env) (gists : List Gist) (n : Nat) (i : Nat)
    (dom : Dom) (log : List String) : Dom × List String × Bool :=
  match gists with
  | [] => (dom, log, false)
  | g :: rest =>
    let msg := "Loading gist " ++ toString (i + 1) ++ " of " ++
      toString n ++ "..."
    let step :=
      if (findProgress dom).isSome then (setProgressText msg dom, log ++ [msg])
      else (dom, log)
    match processGist env step.1 g i with
    | .error _ => (step.1, step.2, true)
    | .ok dom2 => renderLoop env rest n (i + 1) dom2 step.2

/-- The terminal error DOM of the `catch` in `fetchGists` (script.js
lines 261-275): the fixed diagnostic markup in the container and the
`Error loading index` item in the index. -/
def errorDom : Dom :=
  { containerNodes := [.errorBox]
    indexNodes := [.plainItem "Error loading index"] }

/-- script.js lines 222-276, `fetchGists()`, abstracted over the outcome
`fetchRes` of `await fetchAllGists()` and the initial page DOM `dom0`.
Steps, in source order: install the loading placeholder (lines 227-232,
creating `#loading-progress` with text `Starting...`); on a fetch error
fall to the `catch`; on an empty result install the two empty-state
messages (lines 236-240); otherwise clear both containers (lines
243-244 — this removes the loading placeholder and with it
`#loading-progress`), run the render loop, and finally remove the
progress element if it still exists (lines 256-259).  The second
component is the ghost trace of progress-text assignments. -/
def fetchGists (env : Env) (fetchRes : Except Unit (List Gist))
    (dom0 : Dom) : Dom × List String :=
  let _dom1 : Dom :=
    { containerNodes := [.loading (some "Starting...")]
      indexNodes := dom0.indexNodes }
  -- `_dom1` is the state while the fetch is awaited; every continuation
  -- below overwrites both containers, so it does not flow onward.
  match fetchRes with
  | .error _ => (errorDom, [])
  | .ok gists =>
    if gists.length = 0 then
      ({ containerNodes := [.msg "No gists found for this user."]
         indexNodes := [.plainItem "No public gists available"] }, [])
    else
      let dom2 : Dom := { containerNodes := [], indexNodes := [] }
      match renderLoop env gists gists.length 0 dom2 [] with
      | (_, log, true) => (errorDom, log)
      | (dom3, log, false) =>
        (if (findProgress dom3).isSome then removeProgress dom3 else dom3, log)

/-- The index entries the render loop appends for `gists`, starting at
position `i` (proof-layer description of the loop's effect). -/
def entriesOfList : List Gist → Nat → List IndexEntry
  | [], _ => []
  | g :: rest, i => entryOf g i :: entriesOfList rest (i + 1)

/-- The first file of a gist (defaulting arbitrarily; only used where
`files` is known nonempty). -/
def headFile (g : Gist) : FileEntry :=
  g.files.headD ⟨"", none, none⟩

/-- The gist blocks the render loop appends for `gists`, starting at
position `i` (proof-layer description of the loop's effect). -/
def blocksOfList (env : Env) : List Gist → Nat → List GistBlock
  | [], _ => []
  | g :: rest, i => blockOf env g (headFile g) i :: blocksOfList env rest (i + 1)

/-! ### Lemmas about the string primitives -/

lemma splitOnChar_ne_nil (c : Char) (l : List Char) :
    splitOnChar c l ≠ [] := by
  cases l with
  | nil => simp [splitOnChar]
  | cons x xs =>
    cases h : splitOnChar c xs with
    | nil => simp [splitOnChar, h]
    | cons y ys => by_cases hx : x = c <;> simp [splitOnChar, h, hx]

lemma splitOnChar_of_not_mem {c : Char} {l : List Char} (h : c ∉ l) :
    splitOnChar c l = [l] := by
  induction l with
  | nil => rfl
  | cons x xs ih =>
    have hx : ¬x = c := by
      rintro rfl; exact h (List.mem_cons_self ..)
    have hxs : c ∉ xs := fun hm => h (List.mem_cons_of_mem _ hm)
    simp [splitOnChar, ih hxs, hx]

lemma two_le_length_splitOnChar {c : Char} {l : List Char} (h : c ∈ l) :
    2 ≤ (splitOnChar c l).length := by
  induction l with
  | nil => cases h
  | cons x xs ih =>
    simp only [splitOnChar]
    cases hsp : splitOnChar c xs with
    | nil => exact (splitOnChar_ne_nil _ _ hsp).elim
    | cons y ys =>
      by_cases hx : x = c
      · simp [hx]
      · have hcx : c ∈ xs := by
          rcases List.mem_cons.mp h with h1 | h1
          · exact absurd h1.symm hx
          · exact h1
        have := ih hcx
        rw [hsp] at this
        simp only [List.length_cons] at this ⊢
        simp [hx]
        omega

lemma getLastD_splitOnChar_append (c : Char) (l₁ : List Char)
    {l₂ : List Char} (h : c ∉ l₂) :
    (splitOnChar c (l₁ ++ c :: l₂)).getLastD [] = l₂ := by
  induction l₁ with
  | nil =>
    simp only [List.nil_append, splitOnChar, splitOnChar_of_not_mem h]
    simp
  | cons x l₁ ih =>
    have hmem : c ∈ l₁ ++ c :: l₂ :=
      List.mem_append_right _ (List.mem_cons_self ..)
    have h2 := two_le_length_splitOnChar hmem
    simp only [List.cons_append, splitOnChar]
    cases hsp : splitOnChar c (l₁ ++ c :: l₂) with
    | nil => exact (splitOnChar_ne_nil _ _ hsp).elim
    | cons y ys =>
      rw [hsp] at ih h2
      cases ys with
      | nil => simp at h2
      | cons z zs =>
        by_cases hx : x = c
        · simpa [hx] using ih
        · simpa [hx] using ih

lemma jsExt_of_data_split (s : String) (l₁ : List Char)
    {l₂ : List Char} (hs : s.data = l₁ ++ '.' :: l₂) (h : '.' ∉ l₂) :
    jsExt s = ⟨l₂.map Char.toLower⟩ := by
  unfold jsExt
  rw [hs, getLastD_splitOnChar_append _ _ h]

lemma jsExt_of_no_dot {s : String} (h : '.' ∉ s.data) :
    jsExt s = jsToLower s := by
  unfold jsExt jsToLower
  rw [splitOnChar_of_not_mem h]
  rfl

/-! ### Lemmas about `escapeHtml` -/

lemma replaceChar_append (c : Char) (r a b : List Char) :
    replaceChar c r (a ++ b) = replaceChar c r a ++ replaceChar c r b := by
  induction a with
  | nil => rfl
  | cons x xs ih => simp [replaceChar, ih]

lemma escapeHtml_data_cons (x : Char) (xs : List Char) :
    (escapeHtml ⟨x :: xs⟩).data =
      (escapeHtml ⟨[x]⟩).data ++ (escapeHtml ⟨xs⟩).data := by
  show replaceChar '>' _ (replaceChar '<' _ (replaceChar '&' _ ([x] ++ xs)))
      = _
  rw [replaceChar_append, replaceChar_append, replaceChar_append]
  rfl

lemma escapeHtml_single (x : Char) :
    (escapeHtml ⟨[x]⟩).data = htmlEscapeChar x := by
  by_cases h1 : x = '&'
  · subst h1; decide
  · by_cases h2 : x = '<'
    · subst h2; decide
    · by_cases h3 : x = '>'
      · subst h3; decide
      · show replaceChar '>' _ (replaceChar '<' _ (replaceChar '&' _ [x]))
            = _
        simp [replaceChar, htmlEscapeChar, h1, h2, h3]

lemma escapeHtml_flatMap (l : List Char) :
    (escapeHtml ⟨l⟩).data = l.flatMap htmlEscapeChar := by
  induction l with
  | nil => rfl
  | cons x xs ih =>
    rw [escapeHtml_data_cons, escapeHtml_single, ih, List.flatMap_cons]

lemma getLanguageClass_congr_ext {f1 f2 : String}
    (h : jsExt f1 = jsExt f2) (prism : String → Bool)
    (language : Option String) :
    getLanguageClass prism f1 language =
      getLanguageClass prism f2 language := by
  unfold getLanguageClass
  rw [h]

/-! ### Claim theorems about `escapeHtml` and `getLanguageClass` -/

/-- Claim C7: `escapeHtml` replaces every ampersand with the `amp`
entity, every less-than with `lt`, and every greater-than with `gt`
(character-wise description `htmlEscapeChar`); in particular the string
`<script>&</script>` maps to the fully escaped literal text. -/
theorem escapeHtml_replaces_all :
    (∀ s : String, escapeHtml s = ⟨s.data.flatMap htmlEscapeChar⟩) ∧
      escapeHtml "<script>&</script>" =
        "&lt;script&gt;&amp;&lt;/script&gt;" := by
  constructor
  · intro s
    exact congrArg String.mk (escapeHtml_flatMap s.data)
  · decide

/-- Claim C5: the classifier's exact precedence.  A recognized extension
(the `filename.split('.').pop().toLowerCase()` value) forces its fixed
category regardless of the declared language; with no extension
override, a nonempty declared language whose lowercase form the
highlighter registry recognizes names the category; otherwise (registry
miss, or absent/empty declared language) the plain-text category
results. -/
theorem getLanguageClass_precedence (prism : String → Bool)
    (filename : String) (language : Option String) :
    ((jsExt filename = "yml" ∨ jsExt filename = "yaml") →
        getLanguageClass prism filename language = "language-yaml") ∧
    (jsExt filename = "js" →
        getLanguageClass prism filename language = "language-javascript") ∧
    (jsExt filename = "py" →
        getLanguageClass prism filename language = "language-python") ∧
    (jsExt filename = "sh" →
        getLanguageClass prism filename language = "language-bash") ∧
    (jsExt filename = "json" →
        getLanguageClass prism filename language = "language-json") ∧
    (jsExt filename = "md" →
        getLanguageClass prism filename language = "language-markdown") ∧
    ((jsExt filename = "html" ∨ jsExt filename = "htm") →
        getLanguageClass prism filename language = "language-html") ∧
    (jsExt filename = "service" →
        getLanguageClass prism filename language = "language-ini") ∧
    ((jsExt filename = "ini" ∨ jsExt filename = "cfg" ∨
        jsExt filename = "ext") →
        getLanguageClass prism filename language = "language-ini") ∧
    (jsExt filename ∉ overrideExts →
      (∀ l, language = some l → ¬l = "" → prism (jsToLower l) = true →
          getLanguageClass prism filename language =
            "language-" ++ jsToLower l) ∧
      (∀ l, language = some l → ¬l = "" → prism (jsToLower l) = false →
          getLanguageClass prism filename language = "language-text") ∧
      ((language = none ∨ language = some "") →
          getLanguageClass prism filename language = "language-text")) := by
  refine ⟨?_, ?_, ?_, ?_, ?_, ?_, ?_, ?_, ?_, ?_⟩
  · rintro (h | h) <;> simp [getLanguageClass, h]
  · intro h; simp [getLanguageClass, h]
  · intro h; simp [getLanguageClass, h]
  · intro h; simp [getLanguageClass, h]
  · intro h; simp [getLanguageClass, h]
  · intro h; simp [getLanguageClass, h]
  · rintro (h | h) <;> simp [getLanguageClass, h]
  · intro h; simp [getLanguageClass, h]
  · rintro (h | h | h) <;> simp [getLanguageClass, h]
  · intro hno
    simp only [overrideExts, List.mem_cons, List.not_mem_nil, or_false,
      not_or] at hno
    obtain ⟨h1, h2, h3, h4, h5, h6, h7, h8, h9, h10, h11, h12, h13⟩ := hno
    have hlang : ∀ l : String, ¬l = "" → jsOr (some l) "text" = l := by
      intro l hl; simp [jsOr, hl]
    refine ⟨?_, ?_, ?_⟩
    · rintro l rfl hl hp
      simp [getLanguageClass, hlang l hl, h1, h2, h3, h4, h5, h6, h7, h8,
        h9, h10, h11, h12, h13, hp]
    · rintro l rfl hl hp
      simp [getLanguageClass, hlang l hl, h1, h2, h3, h4, h5, h6, h7, h8,
        h9, h10, h11, h12, h13, hp]
    · have htext : jsToLower "text" = "text" := by decide
      have happ : "language-" ++ "text" = "language-text" := by decide
      rintro (rfl | rfl) <;>
        by_cases hp : prism "text" = true <;>
          simp [getLanguageClass, jsOr, htext, happ, h1, h2, h3, h4, h5,
            h6, h7, h8, h9, h10, h11, h12, h13, hp]

/-- Closed instances of the classifier precedence: a `.service` file is
`ini` regardless of a recognized declared language; an unrecognized
extension defers to a recognized declared language (case-insensitively);
an absent declared language falls back to plain text. -/
theorem getLanguageClass_precedence_witness :
    getLanguageClass (fun s => decide (s = "ruby")) "notes.service"
        (some "Ruby") = "language-ini" ∧
    getLanguageClass (fun s => decide (s = "ruby")) "notes.xyz"
        (some "Ruby") = "language-ruby" ∧
    getLanguageClass (fun s => decide (s = "ruby")) "notes.xyz" none =
      "language-text" := by
  refine ⟨?_, ?_, ?_⟩
  · exact
      (getLanguageClass_precedence (fun s => decide (s = "ruby"))
        "notes.service" (some "Ruby")).2.2.2.2.2.2.2.1 (by decide)
  · have h :=
      ((getLanguageClass_precedence (fun s => decide (s = "ruby"))
        "notes.xyz" (some "Ruby")).2.2.2.2.2.2.2.2.2 (by decide)).1
        "Ruby" rfl (by decide) (by decide)
    rw [h]; decide
  · exact
      ((getLanguageClass_precedence (fun s => decide (s = "ruby"))
        "notes.xyz" none).2.2.2.2.2.2.2.2.2 (by decide)).2.2 (Or.inl rfl)

/-- Claim C9: for any filename stem, the classifier gives a `.service`
file the very category it gives the matching `.ini` file, namely the
`ini` category — regardless of the declared language. -/
theorem service_ini_same_category (base : String)
    (language : Option String) (prism : String → Bool) :
    getLanguageClass prism (base ++ ".service") language =
      getLanguageClass prism (base ++ ".ini") language ∧
    getLanguageClass prism (base ++ ".service") language =
      "language-ini" := by
  have hs : jsExt (base ++ ".service") = "service" := by
    have hdata : (base ++ ".service").data = base.data ++ '.' :: "service".data := by
      rw [String.data_append]
    have h := jsExt_of_data_split (base ++ ".service") base.data hdata
      (by decide)
    rw [h]; decide
  have hi : jsExt (base ++ ".ini") = "ini" := by
    have hdata : (base ++ ".ini").data = base.data ++ '.' :: "ini".data := by
      rw [String.data_append]
    have h := jsExt_of_data_split (base ++ ".ini") base.data hdata
      (by decide)
    rw [h]; decide
  constructor
  · simp [getLanguageClass, hs, hi]
  · simp [getLanguageClass, hs]

/-- Claim C10: a dotless filename is classified exactly as if the whole
(lowercased) name were the extension — prefixing a dummy stem and dot
does not change the category — and each recognized extension string used
as a bare filename maps to its fixed category regardless of the declared
language. -/
theorem dotless_filename_as_extension :
    (∀ (fn : String) (language : Option String) (prism : String → Bool),
        '.' ∉ fn.data →
        getLanguageClass prism fn language =
          getLanguageClass prism ("x." ++ fn) language) ∧
    (∀ (language : Option String) (prism : String → Bool),
      getLanguageClass prism "yml" language = "language-yaml" ∧
      getLanguageClass prism "yaml" language = "language-yaml" ∧
      getLanguageClass prism "js" language = "language-javascript" ∧
      getLanguageClass prism "py" language = "language-python" ∧
      getLanguageClass prism "sh" language = "language-bash" ∧
      getLanguageClass prism "json" language = "language-json" ∧
      getLanguageClass prism "md" language = "language-markdown" ∧
      getLanguageClass prism "html" language = "language-html" ∧
      getLanguageClass prism "htm" language = "language-html" ∧
      getLanguageClass prism "service" language = "language-ini" ∧
      getLanguageClass prism "ini" language = "language-ini" ∧
      getLanguageClass prism "cfg" language = "language-ini" ∧
      getLanguageClass prism "ext" language = "language-ini") := by
  constructor
  · intro fn language prism hdot
    have h1 : jsExt fn = jsToLower fn := jsExt_of_no_dot hdot
    have hdata : ("x." ++ fn).data = ['x'] ++ '.' :: fn.data := by
      rw [String.data_append, show "x.".data = ['x', '.'] from rfl]
      rfl
    have h2 : jsExt ("x." ++ fn) = jsToLower fn :=
      jsExt_of_data_split ("x." ++ fn) ['x'] hdata hdot
    exact getLanguageClass_congr_ext (h1.trans h2.symm) prism language
  · intro language prism
    refine ⟨?_, ?_, ?_, ?_, ?_, ?_, ?_, ?_, ?_, ?_, ?_, ?_, ?_⟩ <;>
      simp [getLanguageClass,
        show jsExt "yml" = "yml" from by decide,
        show jsExt "yaml" = "yaml" from by decide,
        show jsExt "js" = "js" from by decide,
        show jsExt "py" = "py" from by decide,
        show jsExt "sh" = "sh" from by decide,
        show jsExt "json" = "json" from by decide,
        show jsExt "md" = "md" from by decide,
        show jsExt "html" = "html" from by decide,
        show jsExt "htm" = "htm" from by decide,
        show jsExt "service" = "service" from by decide,
        show jsExt "ini" = "ini" from by decide,
        show jsExt "cfg" = "cfg" from by decide,
        show jsExt "ext" = "ext" from by decide]

/-- Closed instance of the dotless-filename behavior: a file named
exactly `yml` is classified as YAML even though its declared language
(`python`) is recognized by the registry. -/
theorem dotless_filename_as_extension_witness :
    getLanguageClass (fun s => decide (s = "python")) "yml"
        (some "python") =
      getLanguageClass (fun s => decide (s = "python")) ("x." ++ "yml")
        (some "python") :=
  dotless_filename_as_extension.1 "yml" (some "python")
    (fun s => decide (s = "python")) (by decide)

/-! ### Lemmas about the pagination loop -/

lemma fetchPages_fail {α : Type} (world : Nat → PageResult α) :
    ∀ (qs : List (List α × Option String)) (page : Nat) (acc : List α)
      (reqs : List Nat) (fuel : Nat),
      (∀ j (hj : j < qs.length),
          world (page + j) = .success qs[j].1 qs[j].2) →
      (∀ q ∈ qs, hasNextLink q.2 = true) →
      world (page + qs.length) = .failure →
      qs.length < fuel →
      fetchPages world fuel page acc reqs =
        some (reqs ++ List.range' page (qs.length + 1),
              acc ++ (qs.map Prod.fst).flatten, true) := by
  intro qs
  induction qs with
  | nil =>
    intro page acc reqs fuel _ _ hf hfuel
    cases fuel with
    | zero => omega
    | succ f =>
      have h0 : world page = .failure := by simpa using hf
      simp [fetchPages, h0]
  | cons q qs ih =>
    intro page acc reqs fuel hw hn hf hfuel
    cases fuel with
    | zero => omega
    | succ f =>
      have h0 : world page = .success q.1 q.2 := by
        simpa using hw 0 (by simp)
      have hnext : hasNextLink q.2 = true :=
        hn q (List.mem_cons_self ..)
      have hw' : ∀ j (hj : j < qs.length),
          world (page + 1 + j) = .success qs[j].1 qs[j].2 := by
        intro j hj
        have e : page + 1 + j = page + (j + 1) := by omega
        rw [e]
        simpa using hw (j + 1) (by simpa using Nat.succ_lt_succ hj)
      have hf' : world (page + 1 + qs.length) = .failure := by
        have e : page + 1 + qs.length = page + (qs.length + 1) := by omega
        rw [e]
        simpa using hf
      have hrec := ih (page + 1) (acc ++ q.1) (reqs ++ [page]) f hw'
        (fun q' hq' => hn q' (List.mem_cons_of_mem _ hq'))
        hf' (by simpa using Nat.lt_of_succ_lt_succ hfuel)
      simp only [fetchPages, h0, hnext, if_true]
      rw [hrec]
      simp [List.range'_succ, List.append_assoc]

lemma fetchPages_ok {α : Type} (world : Nat → PageResult α) :
    ∀ (qs : List (List α × Option String)) (lastp : List α × Option String)
      (page : Nat) (acc : List α) (reqs : List Nat) (fuel : Nat),
      (∀ j (hj : j < qs.length),
          world (page + j) = .success qs[j].1 qs[j].2) →
      (∀ q ∈ qs, hasNextLink q.2 = true) →
      world (page + qs.length) = .success lastp.1 lastp.2 →
      hasNextLink lastp.2 = false →
      qs.length < fuel →
      fetchPages world fuel page acc reqs =
        some (reqs ++ List.range' page (qs.length + 1),
              acc ++ ((qs.map Prod.fst).flatten ++ lastp.1), false) := by
  intro qs
  induction qs with
  | nil =>
    intro lastp page acc reqs fuel _ _ hf hlast hfuel
    cases fuel with
    | zero => omega
    | succ f =>
      have h0 : world page = .success lastp.1 lastp.2 := by simpa using hf
      simp [fetchPages, h0, hlast]
  | cons q qs ih =>
    intro lastp page acc reqs fuel hw hn hf hlast hfuel
    cases fuel with
    | zero => omega
    | succ f =>
      have h0 : world page = .success q.1 q.2 := by
        simpa using hw 0 (by simp)
      have hnext : hasNextLink q.2 = true :=
        hn q (List.mem_cons_self ..)
      have hw' : ∀ j (hj : j < qs.length),
          world (page + 1 + j) = .success qs[j].1 qs[j].2 := by
        intro j hj
        have e : page + 1 + j = page + (j + 1) := by omega
        rw [e]
        simpa using hw (j + 1) (by simpa using Nat.succ_lt_succ hj)
      have hf' : world (page + 1 + qs.length) =
          .success lastp.1 lastp.2 := by
        have e : page + 1 + qs.length = page + (qs.length + 1) := by omega
        rw [e]
        simpa using hf
      have hrec := ih lastp (page + 1) (acc ++ q.1) (reqs ++ [page]) f hw'
        (fun q' hq' => hn q' (List.mem_cons_of_mem _ hq'))
        hf' hlast (by simpa using Nat.lt_of_succ_lt_succ hfuel)
      simp only [fetchPages, h0, hnext, if_true]
      rw [hrec]
      simp [List.range'_succ, List.append_assoc]

lemma worldOfPages_success {α : Type}
    (ps : List (List α × Option String)) (j : Nat) (hj : j < ps.length) :
    worldOfPages ps (1 + j) = .success ps[j].1 ps[j].2 := by
  simp [worldOfPages, List.getElem?_eq_getElem hj]

lemma worldOfPages_failure {α : Type}
    (ps : List (List α × Option String)) (p : Nat)
    (hp : ps.length ≤ p - 1) :
    worldOfPages ps p = .failure := by
  simp [worldOfPages, List.getElem?_eq_none hp]

/-! ### Claim theorems about the paginated fetcher -/

/-- Claim C1: fetcher error policy.  In a run where pages `1..k` succeed
(each advertising a next page) and page `k+1` fails, pagination stops at
the failing page (exactly pages `1..k+1` are requested); if nothing was
accumulated the error is thrown to the caller, and otherwise the
accumulated gists are returned with no error signaled. -/
theorem fetchAllGists_error_policy {α : Type}
    (ps : List (List α × Option String)) (fuel : Nat)
    (hnext : ∀ q ∈ ps, hasNextLink q.2 = true)
    (hfuel : ps.length < fuel) :
    fetchAllGistsPages (worldOfPages ps) fuel =
        some (List.range' 1 (ps.length + 1)) ∧
    ((ps.map Prod.fst).flatten = [] →
        fetchAllGists (worldOfPages ps) fuel = some (Except.error ())) ∧
    ((ps.map Prod.fst).flatten ≠ [] →
        fetchAllGists (worldOfPages ps) fuel =
          some (Except.ok ((ps.map Prod.fst).flatten))) := by
  have hw : ∀ j (hj : j < ps.length),
      worldOfPages ps (1 + j) = .success ps[j].1 ps[j].2 :=
    fun j hj => worldOfPages_success ps j hj
  have hfail : worldOfPages ps (1 + ps.length) = .failure :=
    worldOfPages_failure ps (1 + ps.length) (by omega)
  have hrun := fetchPages_fail (worldOfPages ps) ps 1 [] [] fuel hw hnext
    hfail hfuel
  refine ⟨?_, ?_, ?_⟩
  · simp [fetchAllGistsPages, hrun]
  · intro h
    simp [fetchAllGists, hrun, h]
  · intro h
    simp [fetchAllGists, hrun, List.isEmpty_iff, h]

/-- Closed run of the error policy: two pages succeed with `next`
links, page 3 fails, and the two accumulated items come back as a
normal result; a single empty successful page followed by a failure
makes the whole operation throw. -/
theorem fetchAllGists_error_policy_witness :
    fetchAllGists
        (worldOfPages [([1], some "rel=\"next\""), ([2], some "rel=\"next\"")])
        3 = some (Except.ok [1, 2]) ∧
    fetchAllGists
        (worldOfPages ([([], some "rel=\"next\"")] :
          List (List Nat × Option String))) 2 = some (Except.error ()) := by
  constructor
  · have h := (fetchAllGists_error_policy
      [([1], some "rel=\"next\""), ([2], some "rel=\"next\"")] 3
      (by decide) (by decide)).2.2 (by decide)
    rw [h]
    rfl
  · exact (fetchAllGists_error_policy
      ([([], some "rel=\"next\"")] : List (List Nat × Option String)) 2
      (by decide) (by decide)).2.1 (by decide)

/-- Claim C2: on an all-successful run whose pages all advertise a next
page except the last, the fetcher terminates and returns exactly the
concatenation of the pages' item arrays in page order, having requested
pages `1, 2, ...` exactly once each, in increasing order. -/
theorem fetchAllGists_success_concat {α : Type}
    (init : List (List α × Option String))
    (lastp : List α × Option String) (fuel : Nat)
    (hnext : ∀ q ∈ init, hasNextLink q.2 = true)
    (hlast : hasNextLink lastp.2 = false)
    (hfuel : init.length < fuel) :
    fetchAllGists (worldOfPages (init ++ [lastp])) fuel =
      some (Except.ok (((init ++ [lastp]).map Prod.fst).flatten)) ∧
    fetchAllGistsPages (worldOfPages (init ++ [lastp])) fuel =
      some (List.range' 1 (init.length + 1)) := by
  have hw : ∀ j (hj : j < init.length),
      worldOfPages (init ++ [lastp]) (1 + j) =
        .success init[j].1 init[j].2 := by
    intro j hj
    have h := worldOfPages_success (init ++ [lastp]) j (by simp; omega)
    rwa [List.getElem_append_left hj] at h
  have hlastw : worldOfPages (init ++ [lastp]) (1 + init.length) =
      .success lastp.1 lastp.2 := by
    have h := worldOfPages_success (init ++ [lastp]) init.length (by simp)
    rwa [List.getElem_concat_length _ _ _ rfl _] at h
  have hrun := fetchPages_ok (worldOfPages (init ++ [lastp])) init lastp
    1 [] [] fuel hw hnext hlastw hlast hfuel
  constructor
  · simp [fetchAllGists, hrun]
  · simp [fetchAllGistsPages, hrun]

/-- Closed run of the success path: page 1 advertises a next page, page
2 does not; the result is the concatenation of both pages and exactly
pages 1 and 2 were requested, in order. -/
theorem fetchAllGists_success_concat_witness :
    fetchAllGists (worldOfPages [([10], some "rel=\"next\""), ([20], none)])
        2 = some (Except.ok [10, 20]) ∧
    fetchAllGistsPages
        (worldOfPages [([10], some "rel=\"next\""), ([20], none)]) 2 =
      some [1, 2] := by
  have h := fetchAllGists_success_concat [([10], some "rel=\"next\"")]
    (([20], none) : List Nat × Option String) 2 (by decide) (by decide)
    (by decide)
  constructor
  · have h1 := h.1
    rw [show ([([10], some "rel=\"next\"")] : List (List Nat × Option String))
        ++ [([20], none)] =
        [([10], some "rel=\"next\""), ([20], none)] from rfl] at h1
    rw [h1]
    rfl
  · have h2 := h.2
    rw [show ([([10], some "rel=\"next\"")] : List (List Nat × Option String))
        ++ [([20], none)] =
        [([10], some "rel=\"next\""), ([20], none)] from rfl] at h2
    rw [h2]
    decide

/-! ### Lemmas about the renderer and the page driver -/

lemma processGist_cons (env : Env) (dom : Dom) (g : Gist) (i : Nat)
    (f : FileEntry) (fs : List FileEntry) (hf : g.files = f :: fs) :
    processGist env dom g i = .ok
      { containerNodes :=
          dom.containerNodes ++ [.gist (blockOf env g f i)]
        indexNodes := dom.indexNodes ++ [.item (entryOf g i)] } := by
  simp [processGist, hf]

lemma processGist_nil (env : Env) (dom : Dom) (g : Gist) (i : Nat)
    (hf : g.files = []) : processGist env dom g i = .error () := by
  simp [processGist, hf]

lemma processGist_ok_shape {env : Env} {dom : Dom} {g : Gist} {i : Nat}
    {dom' : Dom} (h : processGist env dom g i = .ok dom') :
    ∃ f fs, g.files = f :: fs ∧
      dom' = { containerNodes :=
                 dom.containerNodes ++ [.gist (blockOf env g f i)]
               indexNodes := dom.indexNodes ++ [.item (entryOf g i)] } := by
  cases hgf : g.files with
  | nil => rw [processGist_nil env dom g i hgf] at h; cases h
  | cons f fs =>
    rw [processGist_cons env dom g i f fs hgf] at h
    exact ⟨f, fs, rfl, (Except.ok.inj h).symm⟩

/-- The membership function used by `findProgress`. -/
def progressOf : DomNode → Option String
  | .loading p => p
  | _ => none

lemma findProgress_eq (dom : Dom) :
    findProgress dom = dom.containerNodes.findSome? progressOf := by
  unfold findProgress progressOf
  rfl

lemma findProgress_append_gist {dom : Dom} (b : GistBlock)
    (ix : List IndexNode) (hp : findProgress dom = none) :
    findProgress ⟨dom.containerNodes ++ [.gist b], ix⟩ = none := by
  rw [findProgress_eq] at hp ⊢
  simp only [List.findSome?_append, hp]
  rfl

lemma findProgress_gist_map (bs : List GistBlock) (ix : List IndexNode) :
    findProgress ⟨bs.map DomNode.gist, ix⟩ = none := by
  rw [findProgress_eq]
  rw [List.findSome?_eq_none_iff]
  intro x hx
  obtain ⟨b, _, rfl⟩ := List.mem_map.mp hx
  rfl

lemma renderLoop_success (env : Env) :
    ∀ (gs : List Gist) (n i : Nat) (dom : Dom) (log : List String),
      (∀ g ∈ gs, g.files ≠ []) → findProgress dom = none →
      renderLoop env gs n i dom log =
        ({ containerNodes := dom.containerNodes ++
             (blocksOfList env gs i).map DomNode.gist
           indexNodes := dom.indexNodes ++
             (entriesOfList gs i).map IndexNode.item }, log, false) := by
  intro gs
  induction gs with
  | nil =>
    intro n i dom log _ _
    simp [renderLoop, blocksOfList, entriesOfList]
  | cons g rest ih =>
    intro n i dom log hne hp
    obtain ⟨f, fs, hf⟩ : ∃ f fs, g.files = f :: fs := by
      cases hgf : g.files with
      | nil => exact absurd hgf (hne g (List.mem_cons_self ..))
      | cons a b => exact ⟨a, b, rfl⟩
    have hp2 : findProgress
        ⟨dom.containerNodes ++ [.gist (blockOf env g f i)],
         dom.indexNodes ++ [.item (entryOf g i)]⟩ = none :=
      findProgress_append_gist _ _ hp
    simp only [renderLoop, hp, Option.isSome_none, Bool.false_eq_true,
      if_false]
    cases hpg : processGist env dom g i with
    | error e =>
      rw [processGist_cons env dom g i f fs hf] at hpg
      cases hpg
    | ok dom2 =>
      rw [processGist_cons env dom g i f fs hf] at hpg
      obtain rfl := Except.ok.inj hpg
      refine (ih n (i + 1) _ log
        (fun g' h' => hne g' (List.mem_cons_of_mem _ h')) hp2).trans ?_
      simp [blocksOfList, entriesOfList, hf, headFile, List.append_assoc]

lemma renderLoop_log (env : Env) :
    ∀ (gs : List Gist) (n i : Nat) (dom : Dom) (log : List String),
      findProgress dom = none →
      (renderLoop env gs n i dom log).2.1 = log := by
  intro gs
  induction gs with
  | nil => intro n i dom log _; rfl
  | cons g rest ih =>
    intro n i dom log hp
    simp only [renderLoop, hp, Option.isSome_none, Bool.false_eq_true,
      if_false]
    cases hpg : processGist env dom g i with
    | error e => rfl
    | ok dom2 =>
      obtain ⟨f, fs, _, rfl⟩ := processGist_ok_shape hpg
      exact ih n (i + 1) _ log (findProgress_append_gist _ _ hp)

lemma entriesOfList_length : ∀ (gs : List Gist) (i : Nat),
    (entriesOfList gs i).length = gs.length := by
  intro gs
  induction gs with
  | nil => intro i; rfl
  | cons g rest ih => intro i; simp [entriesOfList, ih]

lemma blocksOfList_length (env : Env) : ∀ (gs : List Gist) (i : Nat),
    (blocksOfList env gs i).length = gs.length := by
  intro gs
  induction gs with
  | nil => intro i; rfl
  | cons g rest ih => intro i; simp [blocksOfList, ih]

lemma aligned_get (env : Env) : ∀ (gs : List Gist) (i j : Nat)
    (h1 : j < (entriesOfList gs i).length)
    (h2 : j < (blocksOfList env gs i).length),
    (entriesOfList gs i)[j].href = "#" ++ (blocksOfList env gs i)[j].id := by
  intro gs
  induction gs with
  | nil => intro i j h1 _; simp [entriesOfList] at h1
  | cons g rest ih =>
    intro i j h1 h2
    cases j with
    | zero => rfl
    | succ j' =>
      simp only [entriesOfList, blocksOfList, List.getElem_cons_succ]
        at h1 h2 ⊢
      exact ih (i + 1) j' (by simpa using h1) (by simpa using h2)

/-! ### Test fixtures for the closed witness instances -/

/-- An environment whose raw-file fetches succeed. -/
def demoEnv : Env :=
  { ffetch := fun _ => .ok "line1"
    markedParse := fun s => s
    prism := fun _ => false
    fmtDate := fun s => s }

/-- An environment whose raw-file fetches all fail (network error or
timeout). -/
def failEnv : Env :=
  { ffetch := fun _ => .error ()
    markedParse := fun s => s
    prism := fun _ => false
    fmtDate := fun s => s }

/-- A plain-text file record. -/
def demoFile : FileEntry :=
  { filename := "a.txt", language := none, rawUrl := some "u" }

/-- A gist with a description. -/
def demoGist : Gist :=
  { description := some "Alpha"
    createdAt := "2024-01-02T00:00:00Z"
    htmlUrl := "h1"
    files := [demoFile] }

/-- A gist without a description. -/
def demoGist2 : Gist :=
  { description := none
    createdAt := "2024-02-03T00:00:00Z"
    htmlUrl := "h2"
    files := [demoFile] }

/-! ### Claim theorems about the renderer and the page driver -/

/-- Claim C3 is refuted: clearing `#gist-container` before the render
loop (script.js line 243) removes the loading placeholder and with it
the `#loading-progress` element, so the loop's guarded update never
fires.  The ghost trace of progress-text assignments is empty in every
run of the driver — in particular in a one-gist run, where the claim
requires the text `Loading gist 1 of 1...` to be set before rendering —
and there is no indicator left to remove afterwards. -/
theorem fetchGists_progress_never_updated :
    (∀ (env : Env) (fetchRes : Except Unit (List Gist)) (dom0 : Dom),
        (fetchGists env fetchRes dom0).2 = []) ∧
    (fetchGists demoEnv (.ok [demoGist]) ⟨[], []⟩).2 = [] := by
  have huniv : ∀ (env : Env) (fetchRes : Except Unit (List Gist))
      (dom0 : Dom), (fetchGists env fetchRes dom0).2 = [] := by
    intro env fetchRes dom0
    cases fetchRes with
    | error e => rfl
    | ok gists =>
      by_cases hlen : gists.length = 0
      · simp [fetchGists, hlen]
      · have hlog := renderLoop_log env gists gists.length 0 ⟨[], []⟩ [] rfl
        rcases hr : renderLoop env gists gists.length 0 ⟨[], []⟩ []
          with ⟨dom3, log, err⟩
        rw [hr] at hlog
        simp at hlog
        cases err <;> simpa [fetchGists, hlen, hr] using hlog
  exact ⟨huniv, huniv demoEnv (.ok [demoGist]) ⟨[], []⟩⟩

/-- Claim C6: after each completed per-gist render (equivalently, after
the loop has consumed any prefix of the gist sequence whose members all
have files), the index list and the content container hold equally many
entries, and the i-th index entry is an anchor whose href is `#`++ the
id of the i-th content block. -/
theorem render_index_container_aligned (env : Env) (gists : List Gist)
    (k : Nat) (hk : ∀ g ∈ gists.take k, g.files ≠ []) :
    ∃ dom : Dom,
      renderLoop env (gists.take k) gists.length 0 ⟨[], []⟩ [] =
        (dom, [], false) ∧
      dom.indexNodes.length = dom.containerNodes.length ∧
      ∀ j (h1 : j < dom.indexNodes.length)
        (h2 : j < dom.containerNodes.length),
        ∃ e b, dom.indexNodes[j] = IndexNode.item e ∧
          dom.containerNodes[j] = DomNode.gist b ∧
          e.href = "#" ++ b.id := by
  have h := renderLoop_success env (gists.take k) gists.length 0 ⟨[], []⟩ []
    hk rfl
  refine ⟨_, h, ?_, ?_⟩
  · simp [entriesOfList_length, blocksOfList_length]
  · intro j h1 h2
    simp only [List.nil_append, List.length_map] at h1 h2
    refine ⟨(entriesOfList (gists.take k) 0)[j],
      (blocksOfList env (gists.take k) 0)[j], ?_, ?_, ?_⟩
    · simp
    · simp
    · exact aligned_get env (gists.take k) 0 j h1 h2

/-- Closed two-gist instance of the index/container alignment. -/
theorem render_index_container_aligned_witness :
    ∃ dom : Dom,
      renderLoop demoEnv ([demoGist, demoGist2].take 2) 2 0 ⟨[], []⟩ [] =
        (dom, [], false) ∧
      dom.indexNodes.length = dom.containerNodes.length ∧
      ∀ j (h1 : j < dom.indexNodes.length)
        (h2 : j < dom.containerNodes.length),
        ∃ e b, dom.indexNodes[j] = IndexNode.item e ∧
          dom.containerNodes[j] = DomNode.gist b ∧
          e.href = "#" ++ b.id :=
  render_index_container_aligned demoEnv [demoGist, demoGist2] 2 (by decide)

/-- Claim C4: a failing (or timed-out) fetch of a gist's primary file is
contained to that gist.  `processGist` still succeeds, appending the
usual index entry and a block whose content is the placeholder
paragraph `Could not load file preview.`; consequently the driver's
render loop runs to completion over all gists (pure gist blocks, no
error box) whenever every gist has at least one file. -/
theorem processGist_fetch_failure_isolated (env : Env) :
    (∀ (dom : Dom) (g : Gist) (i : Nat) (f : FileEntry)
        (rest : List FileEntry),
        g.files = f :: rest →
        jsTruthy f.rawUrl = true →
        jsEndsWith (jsToLower f.filename) ".svg" = false →
        (∀ u, f.rawUrl = some u → env.ffetch u = .error ()) →
        processGist env dom g i = .ok
          { containerNodes :=
              dom.containerNodes ++ [.gist (blockOf env g f i)]
            indexNodes := dom.indexNodes ++ [.item (entryOf g i)] } ∧
        (blockOf env g f i).content =
          .loadError "Could not load file preview.") ∧
    (∀ (gists : List Gist) (dom0 : Dom),
        (∀ g ∈ gists, g.files ≠ []) → gists ≠ [] →
        ∃ bs : List GistBlock,
          (fetchGists env (.ok gists) dom0).1.containerNodes =
            bs.map DomNode.gist ∧ bs.length = gists.length) := by
  constructor
  · intro dom g i f rest hf htr hsvg hfail
    refine ⟨processGist_cons env dom g i f rest hf, ?_⟩
    cases hru : f.rawUrl with
    | none => simp [jsTruthy, hru] at htr
    | some u =>
      have hfe := hfail u hru
      rw [hru] at htr
      by_cases hmd : jsEndsWith (jsToLower f.filename) ".md" = true
      · simp [blockOf, contentOf, hru, htr, hsvg, hmd, hfe]
      · simp [blockOf, contentOf, hru, htr, hsvg, hmd, hfe]
  · intro gists dom0 hne hnil
    have hlen : ¬gists.length = 0 := by
      intro h
      exact hnil (List.length_eq_zero.mp h)
    have h := renderLoop_success env gists gists.length 0 ⟨[], []⟩ [] hne rfl
    have hfp : findProgress
        ⟨List.map DomNode.gist (blocksOfList env gists 0),
         List.map IndexNode.item (entriesOfList gists 0)⟩ = none :=
      findProgress_gist_map _ _
    refine ⟨blocksOfList env gists 0, ?_, blocksOfList_length env gists 0⟩
    simp [fetchGists, hlen, h, hfp]

/-- Closed instance of failure containment: with every fetch failing,
a one-file gist still renders as an index entry plus a block holding the
placeholder paragraph. -/
theorem processGist_fetch_failure_isolated_witness :
    processGist failEnv ⟨[], []⟩ demoGist 0 = .ok
      { containerNodes :=
          ([] : List DomNode) ++ [.gist (blockOf failEnv demoGist demoFile 0)]
        indexNodes :=
          ([] : List IndexNode) ++ [.item (entryOf demoGist 0)] } ∧
    (blockOf failEnv demoGist demoFile 0).content =
      .loadError "Could not load file preview." :=
  (processGist_fetch_failure_isolated failEnv).1 ⟨[], []⟩ demoGist 0
    demoFile [] rfl (by decide) (by decide) (fun u hu => by cases hu; rfl)

/-- Claim C8: the title rendered for the gist at 0-based position `i` —
used in both the appended index entry and the block heading — is the
description when present and nonempty, and the synthetic label
`Gist (i+1)` (1-indexed) otherwise. -/
theorem gist_title_default (env : Env) (dom : Dom) (g : Gist) (i : Nat)
    (dom' : Dom) (h : processGist env dom g i = .ok dom') :
    (∃ f fs, g.files = f :: fs ∧
      dom'.indexNodes = dom.indexNodes ++ [.item (entryOf g i)] ∧
      dom'.containerNodes =
        dom.containerNodes ++ [.gist (blockOf env g f i)]) ∧
    (entryOf g i).text = gistTitle g.description i ∧
    (∀ f, (blockOf env g f i).title = gistTitle g.description i) ∧
    ((g.description = none ∨ g.description = some "") →
        gistTitle g.description i = "Gist " ++ toString (i + 1)) ∧
    (∀ d, g.description = some d → ¬d = "" →
        gistTitle g.description i = d) := by
  obtain ⟨f, fs, hf, rfl⟩ := processGist_ok_shape h
  refine ⟨⟨f, fs, hf, rfl, rfl⟩, rfl, fun _ => rfl, ?_, ?_⟩
  · rintro (hd | hd) <;> simp [gistTitle, jsOr, hd]
  · intro d hd hne
    simp [gistTitle, jsOr, hd, hne]

/-- Closed instance of the title rule for a description-less gist at
position 0: both rendered titles are `Gist 1`. -/
theorem gist_title_default_witness :
    (∃ f fs, demoGist2.files = f :: fs ∧
      ([IndexNode.item (entryOf demoGist2 0)] : List IndexNode) =
        [] ++ [.item (entryOf demoGist2 0)] ∧
      ([DomNode.gist (blockOf demoEnv demoGist2 demoFile 0)] :
          List DomNode) =
        [] ++ [.gist (blockOf demoEnv demoGist2 f 0)]) ∧
    (entryOf demoGist2 0).text = gistTitle demoGist2.description 0 ∧
    (∀ f, (blockOf demoEnv demoGist2 f 0).title =
        gistTitle demoGist2.description 0) ∧
    ((demoGist2.description = none ∨ demoGist2.description = some "") →
        gistTitle demoGist2.description 0 = "Gist " ++ toString (0 + 1)) ∧
    (∀ d, demoGist2.description = some d → ¬d = "" →
        gistTitle demoGist2.description 0 = d) :=
  gist_title_default demoEnv ⟨[], []⟩ demoGist2 0
    ⟨[DomNode.gist (blockOf demoEnv demoGist2 demoFile 0)],
     [IndexNode.item (entryOf demoGist2 0)]⟩ rfl
